import Mathlib

/-!
Verification of the rJMX-Exporter core pipeline.

This file gives a shallow embedding of the parts of the exporter that the
claims concern: the f64 value formatter, the Jolokia response parser and its
value model, the MBean ObjectName parser, the transformation engine (path
flattening, composite traversal, name/label sanitization), the rule template
substitution, the retrying Jolokia client, and the internal histogram.

Modelling conventions:
* Rust `String`/`&str` values are modelled as `List Char` (`Str`), because
  character-by-character processing is what the source performs and what the
  proofs need.  `Char` models Rust `char`.
* Rust `f64` is modelled by the inductive `F`: NaN, the two infinities, and
  finite values carried as exact rationals.  All comparisons the source
  performs on `f64` (`<`, `<=`, `==`, `fract() == 0.0`) are exact operations,
  so the rational carrier is faithful for them; rounding of arithmetic is not
  modelled (no claim depends on it).
* Rust `HashMap` values are modelled as association lists whose insert
  replaces the value of an existing key (last write wins), matching
  `HashMap::insert`.  The list order stands for the (unspecified) iteration
  order of the map.
* Fallible functions return `Except`, with error enums translated from
  `src/error.rs` (payloads of foreign types such as `reqwest::Error` are
  carried as strings).
-/

namespace RJMX

/-- Model of Rust strings as lists of characters. -/
abbrev Str := List Char

/-- Rust `char::is_ascii_digit`, over the code point. -/
def isAsciiDigit (c : Char) : Bool := 48 ≤ c.toNat && c.toNat ≤ 57

/-- Rust `char::is_ascii_alphabetic` (also models `is_alphabetic` on the
ASCII inputs the claims exercise). -/
def isAsciiAlpha (c : Char) : Bool :=
  (65 ≤ c.toNat && c.toNat ≤ 90) || (97 ≤ c.toNat && c.toNat ≤ 122)

/-- Rust `char::is_ascii_alphanumeric` (also models `is_alphanumeric` on
ASCII inputs). -/
def isAsciiAlphanumeric (c : Char) : Bool := isAsciiAlpha c || isAsciiDigit c

/-- Rust `char::is_whitespace`, restricted to the characters Lean's
`Char.isWhitespace` recognises (they agree on ASCII, which is all the
source ever trims). -/
def isWs (c : Char) : Bool := c.isWhitespace

/-- Model of Rust `str::trim`: drop whitespace from both ends. -/
def trimChars (s : Str) : Str :=
  ((s.dropWhile isWs).reverse.dropWhile isWs).reverse

/-- Model of Rust `str::splitn(2, c)` when the separator occurs: the part
before the first occurrence of `c` and the part after it.  `none` when `c`
does not occur (in which case Rust's `splitn` yields a single fragment). -/
def splitFirst (c : Char) : Str → Option (Str × Str)
  | [] => none
  | a :: rest =>
    if a = c then some ([], rest)
    else match splitFirst c rest with
      | some (pre, post) => some (a :: pre, post)
      | none => none

/-- Model of Rust `str::split(c)`: the list of fragments between occurrences
of `c`.  Always non-empty (splitting the empty string yields one empty
fragment, as in Rust). -/
def splitOnChar (c : Char) : Str → List Str
  | [] => [[]]
  | a :: rest =>
    let r := splitOnChar c rest
    if a = c then [] :: r
    else match r with
      | [] => [[a]]
      | h :: t => (a :: h) :: t

/-- Byte-lexicographic order on strings as Rust's `str: Ord` compares them
(UTF-8 byte order equals code-point order). -/
def lexLe : Str → Str → Bool
  | [], _ => true
  | _ :: _, [] => false
  | a :: as_, b :: bs =>
    if a < b then true
    else if a = b then lexLe as_ bs
    else false

/-- Stable insertion of an element into a list using a boolean comparator;
the element goes before the first entry it compares `le` to, so equal keys
keep their original relative order. -/
def insertLe (le : α → α → Bool) (a : α) : List α → List α
  | [] => [a]
  | b :: bs => if le a b then a :: b :: bs else b :: insertLe le a bs

/-- Stable sort by a boolean comparator.  Models Rust's stable
`slice::sort_by` / `sort_by_key`: for a comparator that is a total preorder
the stable sorted permutation is unique, so the algorithm choice is
immaterial. -/
def stableSort (le : α → α → Bool) : List α → List α
  | [] => []
  | a :: rest => insertLe le a (stableSort le rest)

/-- Association-list model of `HashMap::insert`: replace the value of an
existing key, otherwise add the binding. -/
def insertKV (k : Str) (v : β) : List (Str × β) → List (Str × β)
  | [] => [(k, v)]
  | (k₀, v₀) :: rest => if k₀ = k then (k, v) :: rest else (k₀, v₀) :: insertKV k v rest

/-- Association-list lookup, models `HashMap::get`. -/
def lookupKV (k : Str) : List (Str × β) → Option β
  | [] => none
  | (k₀, v₀) :: rest => if k₀ = k then some v₀ else lookupKV k rest

/-- Model of Rust `f64`: NaN, the infinities, and finite values carried as
exact rationals.  The sign of zero and rounding are not modelled; every
comparison the source performs is exact on this carrier. -/
inductive F where
  | nan : F
  | inf : F
  | neginf : F
  | val : ℚ → F
deriving DecidableEq

/-- Rust `f64::is_nan`. -/
def F.isNan : F → Bool
  | .nan => true
  | _ => false

/-- Rust `f64::is_infinite`. -/
def F.isInfinite : F → Bool
  | .inf => true
  | .neginf => true
  | _ => false

/-- Rust `f64::is_sign_positive` (only ever consulted by the source on
infinite values; NaN's bit sign is not modelled and reported positive). -/
def F.isSignPositive : F → Bool
  | .inf => true
  | .neginf => false
  | .nan => true
  | .val q => decide (0 ≤ q)

/-- Rust `<=` on `f64`: false whenever either side is NaN. -/
def F.le : F → F → Bool
  | .nan, _ => false
  | _, .nan => false
  | .neginf, _ => true
  | .inf, .inf => true
  | .inf, _ => false
  | .val _, .inf => true
  | .val _, .neginf => false
  | .val a, .val b => decide (a ≤ b)

/-- Rust `f64` addition (exact on the rational carrier; IEEE rounding is not
modelled). -/
def F.add : F → F → F
  | .nan, _ => .nan
  | _, .nan => .nan
  | .inf, .neginf => .nan
  | .neginf, .inf => .nan
  | .inf, _ => .inf
  | _, .inf => .inf
  | .neginf, _ => .neginf
  | _, .neginf => .neginf
  | .val a, .val b => .val (a + b)

/-- Rust `f64` multiplication (exact on the rational carrier; IEEE rounding
is not modelled). -/
def F.mul : F → F → F
  | .nan, _ => .nan
  | _, .nan => .nan
  | .inf, .inf => .inf
  | .inf, .neginf => .neginf
  | .neginf, .inf => .neginf
  | .neginf, .neginf => .inf
  | .inf, .val b => if 0 < b then .inf else if b < 0 then .neginf else .nan
  | .val a, .inf => if 0 < a then .inf else if a < 0 then .neginf else .nan
  | .neginf, .val b => if 0 < b then .neginf else if b < 0 then .inf else .nan
  | .val a, .neginf => if 0 < a then .neginf else if a < 0 then .inf else .nan
  | .val a, .val b => .val (a * b)

/-- The rendering chosen by `PrometheusFormatter::format_value`
(`src/transformer/formatter.rs`).  The payloads record what the Rust code
feeds to the chosen `format!` call: `intStr n` stands for
`format!("{}", value as i64)` with `n` the exact integer, `sciStr q` for the
`format!("{:e}", value)` branch and `decStr q` for the plain
`format!("{}", value)` branch (the decimal renderings themselves are not
modelled; the claims concern which branch is taken). -/
inductive FormattedValue where
  | nanStr : FormattedValue
  | posInfStr : FormattedValue
  | negInfStr : FormattedValue
  | intStr : ℤ → FormattedValue
  | sciStr : ℚ → FormattedValue
  | decStr : ℚ → FormattedValue
deriving DecidableEq

/-- Embedding of `PrometheusFormatter::format_value`
(`src/transformer/formatter.rs`, lines 167-186).  The first three arms model
the `is_nan` / `is_infinite` / `is_sign_positive` tests; for a finite value
`q`, `q.den = 1` models `value.fract() == 0.0` and `|q|` models
`value.abs()` (exact for every `f64`). -/
def format_value : F → FormattedValue
  | .nan => .nanStr
  | .inf => .posInfStr
  | .neginf => .negInfStr
  | .val q =>
    if q.den = 1 ∧ |q| < 10 ^ 15 then .intStr q.num
    else if 10 ^ 6 ≤ |q| ∨ (|q| < 1 / 1000 ∧ q ≠ 0) then .sciStr q
    else .decStr q

/-- Model of a Rust `char` as `serde_json` / Jolokia JSON values reach the
parser: null, booleans, numbers (exact rationals; `as_i64` succeeds exactly
for integers in the `i64` range), strings, arrays and objects. -/
inductive Json where
  | null : Json
  | bool : Bool → Json
  | num : ℚ → Json
  | str : Str → Json
  | arr : List Json → Json
  | obj : List (Str × Json) → Json

instance : Inhabited Json := ⟨Json.null⟩

/-- Rust `serde_json::Value::is_object`. -/
def Json.isObject : Json → Bool
  | .obj _ => true
  | _ => false

/-- The `AttributeValue` enum of `src/collector/parser.rs`. -/
inductive AttributeValue where
  | Integer : ℤ → AttributeValue
  | Float : F → AttributeValue
  | String : Str → AttributeValue
  | Boolean : Bool → AttributeValue
  | Null : AttributeValue
  | Object : List (Str × AttributeValue) → AttributeValue
  | Array : List AttributeValue → AttributeValue

/-- The `MBeanValue` enum of `src/collector/parser.rs`. -/
inductive MBeanValue where
  | Number : F → MBeanValue
  | String : Str → MBeanValue
  | Boolean : Bool → MBeanValue
  | Null : MBeanValue
  | Composite : List (Str × AttributeValue) → MBeanValue
  | Array : List AttributeValue → MBeanValue
  | Wildcard : List (Str × List (Str × AttributeValue)) → MBeanValue

/-- Digit run to a natural number (the usual positional reading). -/
def digitsToNat (l : Str) : ℕ :=
  l.foldl (fun acc c => acc * 10 + (c.toNat - 48)) 0

/-- Optionally signed non-empty digit run, as the exponent part of Rust's
`f64` grammar reads it. -/
def parseExponent (l : Str) : Option ℤ :=
  let (neg, body) :=
    match l with
    | '+' :: t => (false, t)
    | '-' :: t => (true, t)
    | t => (false, t)
  if body ≠ [] ∧ body.all isAsciiDigit then
    some (if neg then -(digitsToNat body : ℤ) else (digitsToNat body : ℤ))
  else none

/-- Unsigned decimal part of Rust's `f64` grammar: digits with an optional
point and an optional exponent; at least one digit must be present in the
mantissa. -/
def parseF64Body (l : Str) : Option ℚ :=
  let mant := l.takeWhile isAsciiDigit
  let rest := l.dropWhile isAsciiDigit
  match rest with
  | [] => if mant = [] then none else some (digitsToNat mant : ℚ)
  | c :: rest₂ =>
    if c = '.' then
      let frac := rest₂.takeWhile isAsciiDigit
      let rest₃ := rest₂.dropWhile isAsciiDigit
      if mant = [] ∧ frac = [] then none
      else
        let base : ℚ := (digitsToNat mant : ℚ) + (digitsToNat frac : ℚ) / 10 ^ frac.length
        match rest₃ with
        | [] => some base
        | e :: rest₄ =>
          if e = 'e' ∨ e = 'E' then (parseExponent rest₄).map (fun k => base * (10 : ℚ) ^ k)
          else none
    else if c = 'e' ∨ c = 'E' then
      if mant = [] then none
      else (parseExponent rest₂).map (fun k => (digitsToNat mant : ℚ) * (10 : ℚ) ^ k)
    else none

/-- Model of Rust `str::parse::<f64>()` (used by `AttributeValue::as_f64` on
string attributes): optional sign, then either a case-insensitive special
word (`inf`, `infinity`, `nan`) or a decimal number with optional fraction
and exponent.  The parsed value is kept as an exact rational; the claims only
depend on which strings parse, not on rounding. -/
def parse_f64 (s : Str) : Option F :=
  let (neg, body) :=
    match s with
    | '+' :: t => (false, t)
    | '-' :: t => (true, t)
    | t => (false, t)
  let lowered := body.map Char.toLower
  if lowered = "inf".toList ∨ lowered = "infinity".toList then
    some (if neg then .neginf else .inf)
  else if lowered = "nan".toList then some .nan
  else (parseF64Body body).map (fun q => .val (if neg then -q else q))

/-- Embedding of `AttributeValue::as_f64` (`src/collector/parser.rs`, lines
88-103): integers and floats convert (the large-integer case only logs a
warning), strings are run through `str::parse::<f64>()`, everything else is
`None`. -/
def AttributeValue.as_f64 : AttributeValue → Option F
  | .Integer i => some (.val (i : ℚ))
  | .Float f => some f
  | .String s => parse_f64 s
  | _ => none

/-- Embedding of `parse_attribute_value` (`src/collector/parser.rs`, lines
224-253).  In the source the only error path is a number that cannot be
coerced to `f64`, which cannot arise on the exact-rational carrier, so the
embedding is total. -/
def parse_attribute_value : Json → AttributeValue
  | .null => .Null
  | .bool b => .Boolean b
  | .num q =>
    if q.den = 1 ∧ -(2 ^ 63 : ℤ) ≤ q.num ∧ q.num ≤ 2 ^ 63 - 1 then .Integer q.num
    else .Float (.val q)
  | .str s => .String s
  | .arr l => .Array (l.attach.map (fun j => parse_attribute_value j.1))
  | .obj m => .Object (m.attach.map (fun kv => (kv.1.1, parse_attribute_value kv.1.2)))
decreasing_by
  · have h := List.sizeOf_lt_of_mem j.2
    simp only [Json.arr.sizeOf_spec]
    omega
  · have h := List.sizeOf_lt_of_mem kv.2
    rcases kv with ⟨⟨k, v⟩, hm⟩
    simp only [Json.obj.sizeOf_spec, Prod.mk.sizeOf_spec] at h ⊢
    omega

/-- Embedding of `parse_mbean_value` (`src/collector/parser.rs`, lines
176-222).  For objects, the wildcard test is: every key contains both `:`
and `=` and every value is itself an object; a non-empty object passing it
becomes `Wildcard` (the inner `if let Value::Object` keeps exactly the
object-valued entries), anything else becomes `Composite`. -/
def parse_mbean_value : Json → MBeanValue
  | .null => .Null
  | .bool b => .Boolean b
  | .num q => .Number (.val q)
  | .str s => .String s
  | .arr l => .Array (l.map parse_attribute_value)
  | .obj m =>
    let is_wildcard := m.all (fun kv => kv.1.contains ':' && kv.1.contains '=' && kv.2.isObject)
    if is_wildcard && !m.isEmpty then
      .Wildcard (m.filterMap (fun kv =>
        match kv.2 with
        | .obj attrs => some (kv.1, attrs.map (fun kv2 => (kv2.1, parse_attribute_value kv2.2)))
        | _ => none))
    else
      .Composite (m.map (fun kv => (kv.1, parse_attribute_value kv.2)))

/-- The `CollectorError` enum of `src/error.rs` (payloads of foreign error
types are carried as message strings). -/
inductive CollectorError where
  | HttpClientInit : Str → CollectorError
  | HttpRequest : Str → CollectorError
  | HttpResponse : Str → CollectorError
  | HttpStatus : ℕ → CollectorError
  | JsonParse : Str → CollectorError
  | JolokiaError : ℕ → Str → CollectorError
  | MBeanNotFound : Str → CollectorError
  | InvalidObjectName : Str → CollectorError
  | Timeout : Option ℕ → CollectorError
  | ConnectionFailed : Str → CollectorError
  | MaxRetriesExceeded : CollectorError
  | AuthenticationFailed : CollectorError
deriving DecidableEq

/-- Embedding of `CollectorError::is_retryable` (`src/error.rs`, lines
136-145). -/
def CollectorError.is_retryable : CollectorError → Bool
  | .HttpRequest _ => true
  | .HttpResponse _ => true
  | .Timeout _ => true
  | .ConnectionFailed _ => true
  | .HttpStatus code => decide (500 ≤ code ∧ code ≤ 599)
  | _ => false

/-- The `RuleError` enum of `src/transformer/rules.rs` (the `regex::Error`
payload is carried as a message string). -/
inductive RuleError where
  | InvalidPattern : Str → Str → RuleError
  | UnsupportedJavaFeature : Str → Str → RuleError
  | CompilationFailed : Str → RuleError
  | InvalidNameTemplate : Str → Str → RuleError
  | ValidationError : Str → RuleError
deriving DecidableEq

/-- The `RuleError` enum of `src/error.rs` (distinct from the one in
`rules.rs`); only the variants the engine's error conversion produces are
relevant. -/
inductive ErrRuleError where
  | InvalidPattern : Str → Str → ErrRuleError
  | UnsupportedSyntax : Str → Str → ErrRuleError
  | RuleCompileFailed : ℕ → Str → ErrRuleError
deriving DecidableEq

/-- The `TransformError` enum of `src/error.rs`. -/
inductive TransformError where
  | Rule : ErrRuleError → TransformError
  | InvalidMetricName : Str → Str → TransformError
  | InvalidLabelName : Str → Str → TransformError
  | MissingCaptureGroup : ℕ → TransformError
deriving DecidableEq

/-- The error conversion performed inline in `TransformEngine::transform_simple`
(`src/transformer/engine.rs`, lines 196-230): `rules::RuleError` is mapped
into `error::TransformError`. -/
def convert_rule_error : RuleError → TransformError
  | .InvalidPattern pattern source => .Rule (.InvalidPattern pattern source)
  | .UnsupportedJavaFeature pattern feature => .Rule (.UnsupportedSyntax pattern feature)
  | .CompilationFailed msg => .Rule (.InvalidPattern msg msg)
  | .InvalidNameTemplate template reason => .InvalidMetricName template reason
  | .ValidationError msg => .InvalidMetricName [] msg

/-- The `ObjectName` struct of `src/collector/parser.rs`: domain plus the
property map (association list with `HashMap::insert` semantics). -/
structure ObjectName where
  domain : Str
  properties : List (Str × Str)
deriving DecidableEq

/-- The property-parsing loop inside `ObjectName::parse`
(`src/collector/parser.rs`, lines 340-351): each comma fragment must split
at its first `=` into a non-empty trimmed key and a trimmed value, inserted
into the map. -/
def parseProps (orig : Str) : List Str → List (Str × Str) →
    Except CollectorError (List (Str × Str))
  | [], acc => .ok acc
  | prop :: rest, acc =>
    match splitFirst '=' prop with
    | none => .error (.InvalidObjectName orig)
    | some (k, v) =>
      let key := trimChars k
      let value := trimChars v
      if key = [] then .error (.InvalidObjectName orig)
      else parseProps orig rest (insertKV key value acc)

/-- Embedding of `ObjectName::parse` (`src/collector/parser.rs`, lines
327-358): split at the first `:` into domain and property section, trim the
domain and require it non-empty, split the property section on `,` and parse
each fragment, require at least one property. -/
def ObjectName.parse (s : Str) : Except CollectorError ObjectName :=
  match splitFirst ':' s with
  | none => .error (.InvalidObjectName s)
  | some (d, propsStr) =>
    let domain := trimChars d
    if domain = [] then .error (.InvalidObjectName s)
    else
      match parseProps s (splitOnChar ',' propsStr) [] with
      | .error e => .error e
      | .ok props =>
        if props = [] then .error (.InvalidObjectName s)
        else .ok ⟨domain, props⟩

/-- The property sort in `TransformEngine::flatten_mbean_name`
(`src/transformer/engine.rs`, lines 367-368): stable sort by key in
byte-lexicographic order. -/
def sortProps (props : List (Str × Str)) : List (Str × Str) :=
  stableSort (fun a b => lexLe a.1 b.1) props

/-- Embedding of `TransformEngine::flatten_mbean_name`
(`src/transformer/engine.rs`, lines 351-391).  On parse failure the raw
MBean string is used, followed by `<attribute>` when an attribute is
present.  On success the domain is followed by the sorted `<key=value>`
segments; an attribute containing `<` is split at its first `<` so that a
composite path `A<used>` renders as `<A><used>`. -/
def flatten_mbean_name (mbean : Str) (attrib : Option Str) : Str :=
  match ObjectName.parse mbean with
  | .error _ =>
    match attrib with
    | some attr => mbean ++ ('<' :: attr) ++ ['>']
    | none => mbean
  | .ok oname =>
    let base := oname.domain ++
      ((sortProps oname.properties).map (fun kv => '<' :: kv.1 ++ '=' :: kv.2 ++ ['>'])).flatten
    match attrib with
    | none => base
    | some attr =>
      match splitFirst '<' attr with
      | some (pre, post) => base ++ ('<' :: pre) ++ ('>' :: '<' :: post)
      | none => base ++ ('<' :: attr) ++ ['>']

/-- First-character class of the Prometheus metric-name regex
`[a-zA-Z_:]` (`is_ascii_alphabetic`, underscore, colon). -/
def isMetricNameHeadChar (c : Char) : Bool := isAsciiAlpha c || c = '_' || c = ':'

/-- Tail-character class of the Prometheus metric-name regex
`[a-zA-Z0-9_:]`. -/
def isMetricNameTailChar (c : Char) : Bool := isAsciiAlphanumeric c || c = '_' || c = ':'

/-- Whether a name matches `^[a-zA-Z_:][a-zA-Z0-9_:]*$` (the compiled regex
in `validate_metric_name`); the empty string does not match. -/
def metricNameRegexMatches (s : Str) : Bool :=
  match s with
  | [] => false
  | c :: rest => isMetricNameHeadChar c && rest.all isMetricNameTailChar

/-- The character-wise sanitisation map in `validate_metric_name`: position
0 keeps only `[a-zA-Z_:]`, later positions keep `[a-zA-Z0-9_:]`, everything
else becomes an underscore. -/
def sanitizeMetricNameChars (s : Str) : Str :=
  s.enum.map (fun ic =>
    if ic.1 = 0 then (if isMetricNameHeadChar ic.2 then ic.2 else '_')
    else (if isMetricNameTailChar ic.2 then ic.2 else '_'))

/-- Embedding of `TransformEngine::validate_metric_name`
(`src/transformer/engine.rs`, lines 396-441): names matching the regex pass
through; otherwise each character is sanitised position-wise and a leading
underscore is prepended if the result starts with a digit. -/
def validate_metric_name (name : Str) : Except TransformError Str :=
  if metricNameRegexMatches name then .ok name
  else
    let sanitized := sanitizeMetricNameChars name
    let finalName :=
      match sanitized with
      | c :: _ => if isAsciiDigit c then '_' :: sanitized else sanitized
      | [] => sanitized
    .ok finalName

/-- First-character class of the Prometheus label-name regex `[a-zA-Z_]`. -/
def isLabelNameHeadChar (c : Char) : Bool := isAsciiAlpha c || c = '_'

/-- Tail-character class of the Prometheus label-name regex
`[a-zA-Z0-9_]`. -/
def isLabelNameTailChar (c : Char) : Bool := isAsciiAlphanumeric c || c = '_'

/-- Whether a name matches `^[a-zA-Z_][a-zA-Z0-9_]*$` (the compiled regex in
`validate_labels`). -/
def labelNameRegexMatches (s : Str) : Bool :=
  match s with
  | [] => false
  | c :: rest => isLabelNameHeadChar c && rest.all isLabelNameTailChar

/-- The character-wise sanitisation map in `validate_labels`. -/
def sanitizeLabelNameChars (s : Str) : Str :=
  s.enum.map (fun ic =>
    if ic.1 = 0 then (if isLabelNameHeadChar ic.2 then ic.2 else '_')
    else (if isLabelNameTailChar ic.2 then ic.2 else '_'))

/-- The per-entry loop of `validate_labels`: keep a valid key, otherwise
sanitise it, and insert into the result map. -/
def validateLabelsLoop : List (Str × Str) → List (Str × Str) → List (Str × Str)
  | [], acc => acc
  | (k, v) :: rest, acc =>
    let key := if labelNameRegexMatches k then k else sanitizeLabelNameChars k
    validateLabelsLoop rest (insertKV key v acc)

/-- Embedding of `TransformEngine::validate_labels`
(`src/transformer/engine.rs`, lines 446-491). -/
def validate_labels (labels : List (Str × Str)) : Except TransformError (List (Str × Str)) :=
  .ok (validateLabelsLoop labels [])

/-- The `MetricType` enum of `src/transformer/rules.rs`. -/
inductive MetricType where
  | Gauge : MetricType
  | Counter : MetricType
  | Histogram : MetricType
  | Untyped : MetricType
deriving DecidableEq

/-- The data a `RuleMatch` (`src/transformer/rules.rs`) exposes to the
engine, with template substitution already applied: `metricName` is
`RuleMatch::metric_name()`, `labels` is `RuleMatch::labels()`, and the rest
are the matched rule's fields. -/
structure RuleMatchInfo where
  pattern : Str
  metricName : Str
  labels : List (Str × Str)
  metricType : MetricType
  help : Option Str
  valueFactor : Option F
  valueExpr : Option Str

/-- The `PrometheusMetric` struct of `src/transformer/engine.rs`. -/
structure PrometheusMetric where
  name : Str
  metric_type : MetricType
  help : Option Str
  labels : List (Str × Str)
  value : F
  timestamp : Option ℤ

/-- The `TransformEngine` struct of `src/transformer/engine.rs`.  The rule
set and its regex engine are external to the embedding; `find_match`
abstracts `RuleSet::find_match` as a function from the flattened path to an
optional match (or a rule error), which is the whole interface
`transform_simple` consumes. -/
structure TransformEngine where
  find_match : Str → Except RuleError (Option RuleMatchInfo)
  lowercase_names : Bool
  lowercase_labels : Bool

/-- Embedding of `TransformEngine::transform_simple`
(`src/transformer/engine.rs`, lines 188-273): flatten the MBean name, find
the first matching rule, then validate the (optionally lowercased) metric
name and labels, apply the value factor, and emit a single metric; no match
emits nothing.  Lowercasing is modelled per character (faithful on ASCII,
which is all the source lowercases in practice). -/
def transform_simple (e : TransformEngine) (mbean : Str) (attrib : Option Str)
    (value : F) : Except TransformError (List PrometheusMetric) :=
  let flattened := flatten_mbean_name mbean attrib
  match e.find_match flattened with
  | .error err => .error (convert_rule_error err)
  | .ok none => .ok []
  | .ok (some rm) =>
    let metricName := if e.lowercase_names then rm.metricName.map Char.toLower else rm.metricName
    match validate_metric_name metricName with
    | .error err => .error err
    | .ok validatedName =>
      let labels :=
        if e.lowercase_labels then rm.labels.map (fun kv => (kv.1.map Char.toLower, kv.2))
        else rm.labels
      match validate_labels labels with
      | .error err => .error err
      | .ok validatedLabels =>
        let finalValue :=
          match rm.valueFactor with
          | some factor => F.mul value factor
          | none => value
        .ok [{ name := validatedName, metric_type := rm.metricType, help := rm.help,
               labels := validatedLabels, value := finalValue, timestamp := none }]

/-- The attribute-path concatenation in `TransformEngine::transform_composite`:
`format!("{}<{}>", attr, key)` when a base attribute is present, else the
composite key alone. -/
def composite_full_attr (attrib : Option Str) (key : Str) : Str :=
  match attrib with
  | some attr => attr ++ ('<' :: key) ++ ['>']
  | none => key

/-- Embedding of `TransformEngine::transform_composite`
(`src/transformer/engine.rs`, lines 283-305): iterate the composite entries;
an entry whose `as_f64` conversion succeeds is transformed as a simple leaf
under the extended attribute path, every other entry is passed over; errors
abort the iteration (the `?` operator). -/
def transform_composite (e : TransformEngine) (mbean : Str) (attrib : Option Str) :
    List (Str × AttributeValue) → Except TransformError (List PrometheusMetric)
  | [] => .ok []
  | (key, value) :: rest =>
    match value.as_f64 with
    | some num =>
      match transform_simple e mbean (some (composite_full_attr attrib key)) num with
      | .error err => .error err
      | .ok ms =>
        match transform_composite e mbean attrib rest with
        | .error err => .error err
        | .ok more => .ok (ms ++ more)
    | none => transform_composite e mbean attrib rest

/-- The capture-group data a `regex::Captures` value exposes to
`apply_substitution`: lookup by group index (`captures.get(i)`) and by group
name (`captures.name(s)`), the matched text as a string.  `none` models a
group absent from the pattern or unmatched. -/
structure Captures where
  get : ℕ → Option Str
  name : Str → Option Str

/-- The character loop of `apply_substitution` (`src/transformer/rules.rs`,
lines 772-828).  On `$` followed by a digit, the whole digit run is read and
the group with that index is substituted (missing group: empty).  On `$`
followed by a letter, the letter-or-digit run is read (underscores
terminate, since they are not alphanumeric) and the named group is
substituted (missing: empty).  Otherwise the `$` is kept literally and the
following character is processed normally.  `isAsciiDigit` models
`is_ascii_digit`; `isAsciiAlpha`/`isAsciiAlphanumeric` model the source's
`is_alphabetic`/`is_alphanumeric` (faithful on ASCII). -/
def applySubGo (caps : Captures) : Str → Str
  | [] => []
  | '$' :: [] => ['$']
  | '$' :: head :: rest =>
    if isAsciiDigit head then
      let groupNum := (head :: rest).takeWhile isAsciiDigit
      let rest₂ := (head :: rest).dropWhile isAsciiDigit
      ((caps.get (digitsToNat groupNum)).getD []) ++ applySubGo caps rest₂
    else if isAsciiAlpha head then
      let groupName := (head :: rest).takeWhile isAsciiAlphanumeric
      let rest₂ := (head :: rest).dropWhile isAsciiAlphanumeric
      ((caps.name groupName).getD []) ++ applySubGo caps rest₂
    else '$' :: applySubGo caps (head :: rest)
  | c :: rest => c :: applySubGo caps rest
termination_by l => l.length
decreasing_by
  · have h : ∀ (p : Char → Bool) (l : List Char), (l.dropWhile p).length ≤ l.length := by
      intro p l
      induction l with
      | nil => simp [List.dropWhile]
      | cons a t ih =>
        by_cases hp : p a
        · simp [List.dropWhile, hp]
          omega
        · simp [List.dropWhile, hp]
    have h2 := h isAsciiDigit (head :: rest)
    simp only [List.length_cons] at h2 ⊢
    omega
  · have h : ∀ (p : Char → Bool) (l : List Char), (l.dropWhile p).length ≤ l.length := by
      intro p l
      induction l with
      | nil => simp [List.dropWhile]
      | cons a t ih =>
        by_cases hp : p a
        · simp [List.dropWhile, hp]
          omega
        · simp [List.dropWhile, hp]
    have h2 := h isAsciiAlphanumeric (head :: rest)
    simp only [List.length_cons] at h2 ⊢
    omega
  · simp
  · simp

/-- Embedding of `apply_substitution` (`src/transformer/rules.rs`, lines
772-828). -/
def apply_substitution (template : Str) (caps : Captures) : Str :=
  applySubGo caps template

/-- The `RetryConfig` struct of `src/collector/client.rs`.  Delays are in
milliseconds, carried as exact rationals; the multiplier is an `f64`. -/
structure RetryConfig where
  max_retries : ℕ
  initial_delay : ℚ
  max_delay : ℚ
  multiplier : F

/-- The `Default` impl for `RetryConfig` (`src/collector/client.rs`, lines
53-62): 3 retries, 100 ms initial delay, 2 s maximum delay, multiplier 2. -/
def RetryConfig.default : RetryConfig :=
  { max_retries := 3, initial_delay := 100, max_delay := 2000, multiplier := .val 2 }

/-- The multiplier clamp in `read_mbean_with_retry`
(`src/collector/client.rs`, lines 296-300): a non-finite or non-positive
multiplier falls back to 2. -/
def safe_multiplier : F → ℚ
  | .val q => if 0 < q then q else 2
  | _ => 2

/-- Embedding of `JolokiaClient::is_jolokia_status_retryable`
(`src/collector/client.rs`, lines 312-315): `(500..600).contains(&status)`. -/
def is_jolokia_status_retryable (status : ℕ) : Bool :=
  decide (500 ≤ status ∧ status < 600)

/-- The `RequestInfo` struct of `src/collector/parser.rs`. -/
structure RequestInfo where
  mbean : Str
  attrib : Option Json
  request_type : Str

/-- The `JolokiaResponse` struct of `src/collector/parser.rs`. -/
structure JolokiaResponse where
  request : RequestInfo
  value : MBeanValue
  status : ℕ
  timestamp : ℕ
  error : Option Str
  error_type : Option Str

/-- Observable trace of one `read_mbean_with_retry` call: the returned
result, how many times `read_mbean` was invoked, and the backoff delays
slept (milliseconds, in order). -/
structure RetryTrace where
  result : Except CollectorError JolokiaResponse
  attempts : ℕ
  delays : List ℚ

/-- The `for attempt in 0..=max_retries` loop of
`JolokiaClient::read_mbean_with_retry` (`src/collector/client.rs`, lines
247-309), with the underlying `read_mbean` call abstracted as a function
from attempt index to its outcome.  `remaining` counts the iterations after
the current one (`max_retries - attempt`), so `remaining > 0` is the
source's `attempt < config.max_retries` sleep condition.  On exhaustion the
loop returns `last_error.unwrap_or(MaxRetriesExceeded)`; the loop body has
always recorded an error by then, so the recorded error is returned (the
`MaxRetriesExceeded` fallback is unreachable). -/
def read_retry_go (endpoint : ℕ → Except CollectorError JolokiaResponse)
    (cfg : RetryConfig) : ℕ → ℕ → ℚ → List ℚ → RetryTrace
  | attempt, remaining, delay, slept =>
    match endpoint attempt with
    | .ok response =>
      if response.status = 200 then ⟨.ok response, attempt + 1, slept⟩
      else if is_jolokia_status_retryable response.status then
        let err := CollectorError.JolokiaError response.status
          (response.error.getD ("Unknown Jolokia error".toList))
        match remaining with
        | 0 => ⟨.error err, attempt + 1, slept⟩
        | r + 1 =>
          read_retry_go endpoint cfg (attempt + 1) r
            (min (delay * safe_multiplier cfg.multiplier) cfg.max_delay) (slept ++ [delay])
      else ⟨.ok response, attempt + 1, slept⟩
    | .error e =>
      if e.is_retryable then
        match remaining with
        | 0 => ⟨.error e, attempt + 1, slept⟩
        | r + 1 =>
          read_retry_go endpoint cfg (attempt + 1) r
            (min (delay * safe_multiplier cfg.multiplier) cfg.max_delay) (slept ++ [delay])
      else ⟨.error e, attempt + 1, slept⟩

/-- Embedding of `JolokiaClient::read_mbean_with_retry`
(`src/collector/client.rs`, lines 247-309). -/
def read_mbean_with_retry (endpoint : ℕ → Except CollectorError JolokiaResponse)
    (cfg : RetryConfig) : RetryTrace :=
  read_retry_go endpoint cfg 0 cfg.max_retries cfg.initial_delay []

/-- Embedding of `JolokiaClient::collect_with_fallback`
(`src/collector/client.rs`, lines 318-353): one plain `read_mbean` call per
MBean — the function contains no retry logic — and every per-MBean result,
`Ok` or `Err`, is pushed into the result list. -/
def collect_with_fallback (read_mbean : Str → Except CollectorError JolokiaResponse) :
    List Str → List (Str × Except CollectorError JolokiaResponse)
  | [] => []
  | m :: rest => (m, read_mbean m) :: collect_with_fallback read_mbean rest

/-- The comparator `a.partial_cmp(b).unwrap_or(Equal)` used by
`Histogram::new` to sort bucket bounds, read as a `<=`-style boolean (the
sort places `a` before `b` unless the comparison is `Greater`; NaN is
incomparable, hence treated as `Equal`). -/
def fCmpLe (a b : F) : Bool :=
  match a, b with
  | .nan, _ => true
  | _, .nan => true
  | .neginf, _ => true
  | _, .neginf => false
  | .inf, .inf => true
  | .inf, _ => false
  | _, .inf => true
  | .val x, .val y => decide (x ≤ y)

/-- The `Histogram` struct of `src/metrics.rs` (the atomics carry plain
values in this sequential model). -/
structure Histogram where
  buckets : List F
  bucket_counts : List ℕ
  sum : F
  count : ℕ

/-- Embedding of `Histogram::new` (`src/metrics.rs`, lines 159-182): sort
the bounds, append a `+Inf` bound unless the last bound is already infinite,
zero all counters. -/
def Histogram.new (bounds : List F) : Histogram :=
  let sorted := stableSort fCmpLe bounds
  let sorted_buckets :=
    if (sorted.getLast?.map (fun v => !v.isInfinite)).getD true then sorted ++ [F.inf]
    else sorted
  { buckets := sorted_buckets,
    bucket_counts := sorted_buckets.map (fun _ => 0),
    sum := .val 0,
    count := 0 }

/-- Embedding of `Histogram::observe` (`src/metrics.rs`, lines 190-213):
increment the total count, add to the sum, and increment every bucket whose
bound satisfies `v <= bound`. -/
def Histogram.observe (h : Histogram) (v : F) : Histogram :=
  { buckets := h.buckets,
    bucket_counts := List.zipWith (fun b c => if F.le v b then c + 1 else c)
      h.buckets h.bucket_counts,
    sum := F.add h.sum v,
    count := h.count + 1 }

/-- A finite sequence of `observe` calls, in order. -/
def Histogram.observeAll (h : Histogram) (vs : List F) : Histogram :=
  vs.foldl Histogram.observe h

/-- An engine whose rule set consists of one rule matching every path (as a
`.*` pattern with constant name `m` would), used to exercise the traversal
logic on concrete inputs. -/
def constUntypedEngine : TransformEngine :=
  { find_match := fun _ => .ok (some
      { pattern := [], metricName := "m".toList, labels := [], metricType := .Untyped,
        help := none, valueFactor := none, valueExpr := none }),
    lowercase_names := false,
    lowercase_labels := false }

/-- The metric `constUntypedEngine` emits for a leaf of value `v`. -/
def cMetric (v : F) : PrometheusMetric :=
  { name := "m".toList, metric_type := .Untyped, help := none, labels := [],
    value := v, timestamp := none }

/-- Modelled from the spec (section 4.3 backoff description): the backoff
delay sequence with `d₀ = initial` and `d_{k+1} = min (d_k * multiplier)
max_delay`, used as the reference shape for the delays the embedded retry
loop actually sleeps. -/
def delaySeq (d mult maxD : ℚ) : ℕ → List ℚ
  | 0 => []
  | n + 1 => d :: delaySeq (min (d * mult) maxD) mult maxD n

/-- Claim C6: `format_value` renders NaN as `NaN`, the infinities as `+Inf`
and `-Inf`; every finite value with zero fractional part and absolute value
below `10^15` as a decimal integer; and every remaining finite value whose
absolute value is at least `10^6`, or strictly between `0` and `10^-3`, in
scientific notation. -/
theorem claim_C6_formatter :
    format_value F.nan = .nanStr ∧
    format_value F.inf = .posInfStr ∧
    format_value F.neginf = .negInfStr ∧
    (∀ q : ℚ, q.den = 1 → |q| < 10 ^ 15 → format_value (.val q) = .intStr q.num) ∧
    (∀ q : ℚ, ¬ (q.den = 1 ∧ |q| < 10 ^ 15) →
      10 ^ 6 ≤ |q| ∨ (0 < |q| ∧ |q| < 1 / 1000) →
      format_value (.val q) = .sciStr q) := by
  refine ⟨rfl, rfl, rfl, ?_, ?_⟩
  · intro q h1 h2
    simp [format_value, h1, h2]
  · intro q h1 h2
    simp only [format_value]
    rw [if_neg h1, if_pos]
    rcases h2 with h | ⟨hpos, hlt⟩
    · exact Or.inl h
    · exact Or.inr ⟨hlt, abs_pos.mp hpos⟩

/-- Witness for C6 at concrete inputs: `42` takes the integer branch and
`10^16` the scientific branch. -/
theorem claim_C6_formatter_witness :
    format_value (.val 42) = .intStr 42 ∧
    format_value (.val 10000000000000000) = .sciStr 10000000000000000 := by
  constructor
  · have h := claim_C6_formatter.2.2.2.1 42 (by norm_num [Rat.den_ofNat]) (by norm_num)
    simpa using h
  · exact claim_C6_formatter.2.2.2.2 10000000000000000 (by norm_num) (by norm_num)

/-- Claim C5: a JSON object is classified `Wildcard` exactly when it is
non-empty, every key contains both `:` and `=`, and every value is itself an
object; every other JSON object (the empty one included) is classified
`Composite`, keeping all entries. -/
theorem claim_C5_wildcard_rule (m : List (Str × Json)) :
    ((∃ w, parse_mbean_value (.obj m) = .Wildcard w) ↔
      (m ≠ [] ∧ ∀ kv ∈ m, kv.1.contains ':' = true ∧ kv.1.contains '=' = true ∧
        kv.2.isObject = true)) ∧
    ((¬ (m ≠ [] ∧ ∀ kv ∈ m, kv.1.contains ':' = true ∧ kv.1.contains '=' = true ∧
        kv.2.isObject = true)) →
      parse_mbean_value (.obj m) =
        .Composite (m.map (fun kv => (kv.1, parse_attribute_value kv.2)))) := by
  have hiff : ((m.all (fun kv => kv.1.contains ':' && kv.1.contains '=' && kv.2.isObject) &&
      !m.isEmpty) = true) ↔
      (m ≠ [] ∧ ∀ kv ∈ m, kv.1.contains ':' = true ∧ kv.1.contains '=' = true ∧
        kv.2.isObject = true) := by
    simp [List.all_eq_true, Bool.and_eq_true, List.isEmpty_iff, and_assoc]
    tauto
  constructor
  · constructor
    · rintro ⟨w, hw⟩
      by_cases h : (m.all (fun kv => kv.1.contains ':' && kv.1.contains '=' && kv.2.isObject) &&
          !m.isEmpty) = true
      · exact hiff.mp h
      · simp only [parse_mbean_value] at hw
        rw [if_neg h] at hw
        exact absurd hw (by simp)
    · intro h
      refine ⟨m.filterMap (fun kv =>
          match kv.2 with
          | .obj attrs =>
            some (kv.1, attrs.map (fun kv2 => (kv2.1, parse_attribute_value kv2.2)))
          | _ => none), ?_⟩
      simp only [parse_mbean_value]
      rw [if_pos (hiff.mpr h)]
  · intro h
    have hcond : ¬ ((m.all (fun kv => kv.1.contains ':' && kv.1.contains '=' && kv.2.isObject) &&
        !m.isEmpty) = true) := fun hc => h (hiff.mp hc)
    simp only [parse_mbean_value]
    rw [if_neg hcond]

/-- Witness for C5: the empty object is classified `Composite`. -/
theorem claim_C5_wildcard_rule_witness :
    parse_mbean_value (.obj []) = .Composite [] := by
  have h := (claim_C5_wildcard_rule []).2 (by simp)
  simpa using h

/-- Helper: a character of the metric-name head class `[A-Za-z_:]` is never
an ASCII digit — which is why the post-sanitisation digit check of
`validate_metric_name` can never fire. -/
theorem metricHeadChar_not_digit (c : Char) (h : isMetricNameHeadChar c = true) :
    isAsciiDigit c = false := by
  rcases Bool.or_eq_true_iff.mp h with h1 | h2
  · rcases Bool.or_eq_true_iff.mp h1 with ha | hu
    · simp only [isAsciiAlpha, isAsciiDigit, Bool.or_eq_true, Bool.and_eq_true,
        decide_eq_true_eq, Bool.and_eq_false_iff, decide_eq_false_iff_not, not_le] at *
      omega
    · have hc : c = '_' := by simpa using hu
      subst hc; decide
  · have hc : c = ':' := by simpa using h2
    subst hc; decide

/-- Helper: the sanitisation map sends a non-empty name to a non-empty name
whose head is the (sanitised) head character. -/
theorem sanitizeMetricNameChars_cons (c : Char) (rest : Str) :
    ∃ t, sanitizeMetricNameChars (c :: rest) =
      (if isMetricNameHeadChar c then c else '_') :: t ∧ t.length = rest.length := by
  refine ⟨_, rfl, ?_⟩
  simp [List.enumFrom_length]

/-- Helper: `validate_metric_name` succeeds on every input. -/
theorem validate_metric_name_isOk (s : Str) : ∃ t, validate_metric_name s = .ok t := by
  unfold validate_metric_name
  split
  · exact ⟨_, rfl⟩
  · exact ⟨_, rfl⟩

/-- Counterexample to claim C2 as stated: sanitising `123abc` yields
`_23abc` (the leading digit, being invalid in the head class `[A-Za-z_:]`,
is itself replaced by an underscore), not the claimed `_123abc`. -/
theorem claim_C2_counterexample :
    validate_metric_name ("123abc".toList) = .ok ("_23abc".toList) ∧
    ("_23abc".toList : Str) ≠ ("_123abc".toList : Str) := by
  constructor
  · rfl
  · decide

/-- Claim C2 (amended): sanitisation replaces every invalid character with
an underscore position-wise — a leading digit included, since the head class
is `[A-Za-z_:]` — so the result never begins with a digit, the digit-prepend
branch never fires, and the output always has the input's length; `123abc`
sanitises to `_23abc` and `a-b.c` to `a_b_c`. -/
theorem claim_C2_sanitization :
    validate_metric_name ("123abc".toList) = .ok ("_23abc".toList) ∧
    validate_metric_name ("a-b.c".toList) = .ok ("a_b_c".toList) ∧
    (∀ s : Str, ∃ t, validate_metric_name s = .ok t ∧ t.length = s.length ∧
      ∀ c, t.head? = some c → isAsciiDigit c = false) := by
  refine ⟨by rfl, by rfl, ?_⟩
  intro s
  by_cases h : metricNameRegexMatches s = true
  · refine ⟨s, by simp [validate_metric_name, h], rfl, ?_⟩
    intro c hc
    cases s with
    | nil => simp at hc
    | cons a rest =>
      have hac : a = c := by simpa using hc
      subst hac
      have hhead : isMetricNameHeadChar a = true := by
        have h2 := h
        simp only [metricNameRegexMatches, Bool.and_eq_true] at h2
        exact h2.1
      exact metricHeadChar_not_digit a hhead
  · cases s with
    | nil =>
      refine ⟨[], ?_, rfl, by simp⟩
      simp [validate_metric_name, h, sanitizeMetricNameChars]
    | cons a rest =>
      obtain ⟨t, ht, htlen⟩ := sanitizeMetricNameChars_cons a rest
      have hhd : isAsciiDigit (if isMetricNameHeadChar a then a else '_') = false := by
        by_cases ha : isMetricNameHeadChar a = true
        · rw [if_pos ha]; exact metricHeadChar_not_digit a ha
        · rw [if_neg ha]; decide
      refine ⟨(if isMetricNameHeadChar a then a else '_') :: t, ?_, by simp [htlen], ?_⟩
      · simp only [validate_metric_name]
        rw [if_neg h, ht]
        simp only [hhd]
        simp
      · intro c hc
        have hcc : (if isMetricNameHeadChar a then a else '_') = c := by simpa using hc
        rw [← hcc]
        exact hhd

/-- Witness for the amended C2 at a concrete input. -/
theorem claim_C2_sanitization_witness :
    ∃ t, validate_metric_name ("9x".toList) = .ok t ∧ t.length = ("9x".toList).length ∧
      ∀ c, t.head? = some c → isAsciiDigit c = false :=
  claim_C2_sanitization.2.2 ("9x".toList)

/-- Claim C8: metric-name and label-name sanitisation are total — both
validators return `Ok` on every input — and therefore `transform_simple`
never fails once `find_match` has answered: its only error source is the
rule matcher. -/
theorem claim_C8_sanitization_total :
    (∀ s : Str, ∃ t, validate_metric_name s = .ok t) ∧
    (∀ ls : List (Str × Str), ∃ out, validate_labels ls = .ok out) ∧
    (∀ (e : TransformEngine) (mbean : Str) (attrib : Option Str) (v : F)
      (r : Option RuleMatchInfo),
      e.find_match (flatten_mbean_name mbean attrib) = .ok r →
      ∃ ms, transform_simple e mbean attrib v = .ok ms) := by
  refine ⟨validate_metric_name_isOk, fun ls => ⟨_, rfl⟩, ?_⟩
  intro e mbean attrib v r hr
  simp only [transform_simple]
  rw [hr]
  cases r with
  | none => exact ⟨[], rfl⟩
  | some rm =>
    obtain ⟨t, ht⟩ := validate_metric_name_isOk
      (if e.lowercase_names then rm.metricName.map Char.toLower else rm.metricName)
    simp only [ht]
    exact ⟨_, rfl⟩

/-- Witness for C8: a concrete engine whose matcher answers `none`. -/
theorem claim_C8_sanitization_total_witness :
    ∃ ms, transform_simple ⟨fun _ => .ok none, false, false⟩ [] none (.val 0) = .ok ms :=
  claim_C8_sanitization_total.2.2 ⟨fun _ => .ok none, false, false⟩ [] none (.val 0) none rfl

/-- Claim C9: when ObjectName parsing fails, `flatten_mbean_name` falls back
to the raw MBean string (followed by `<attribute>` when an attribute is
present), and `transform_simple` proceeds to rule matching on that raw path,
emitting the matched metric rather than erroring or dropping the leaf. -/
theorem claim_C9_fallback (mbean : Str) (attr : Str) (err : CollectorError)
    (hparse : ObjectName.parse mbean = .error err) :
    flatten_mbean_name mbean (some attr) = mbean ++ ('<' :: attr) ++ ['>'] ∧
    flatten_mbean_name mbean none = mbean ∧
    (∀ (e : TransformEngine) (v : F) (rm : RuleMatchInfo),
      e.find_match (mbean ++ ('<' :: attr) ++ ['>']) = .ok (some rm) →
      ∃ metric, transform_simple e mbean (some attr) v = .ok [metric]) := by
  have hflat : flatten_mbean_name mbean (some attr) = mbean ++ ('<' :: attr) ++ ['>'] := by
    simp only [flatten_mbean_name, hparse]
  refine ⟨hflat, by simp only [flatten_mbean_name, hparse], ?_⟩
  intro e v rm hmatch
  simp only [transform_simple, hflat]
  rw [hmatch]
  obtain ⟨t, ht⟩ := validate_metric_name_isOk
    (if e.lowercase_names then rm.metricName.map Char.toLower else rm.metricName)
  simp only [ht]
  exact ⟨_, rfl⟩

/-- Witness for C9: `java.lang` has no `:` separator, so parsing fails and
the raw fallback path `java.lang<Uptime>` is used. -/
theorem claim_C9_fallback_witness :
    flatten_mbean_name ("java.lang".toList) (some ("Uptime".toList)) =
      "java.lang<Uptime>".toList := by
  have h := (claim_C9_fallback ("java.lang".toList) ("Uptime".toList)
    (.InvalidObjectName ("java.lang".toList)) (by rfl)).1
  rw [h]
  decide

/-- Helper: under the always-matching engine, every simple leaf emits
exactly one metric carrying its value. -/
theorem transform_simple_const (mbean : Str) (attrib : Option Str) (v : F) :
    transform_simple constUntypedEngine mbean attrib v = .ok [cMetric v] := rfl

/-- Counterexample to claim C1 as stated: on the composite
`{used: 7, nested: {deep: 1}, numstr: "25", name: "hello"}` under an
always-matching rule, the engine emits metrics for `used` and for the
numeric string `numstr` — and none for the nested leaf `deep` — whereas the
claim predicts metrics for `used` and `deep` and silence for both strings. -/
theorem claim_C1_counterexample :
    transform_composite constUntypedEngine ("java.lang:type=Memory".toList)
      (some ("A".toList))
      [("used".toList, .Integer 7),
       ("nested".toList, .Object [("deep".toList, .Integer 1)]),
       ("numstr".toList, .String ("25".toList)),
       ("name".toList, .String ("hello".toList))] =
      .ok [cMetric (.val ((7 : ℤ) : ℚ)), cMetric (.val ((25 : ℕ) : ℚ))] ∧
    [cMetric (.val ((7 : ℤ) : ℚ)), cMetric (.val ((25 : ℕ) : ℚ))].map PrometheusMetric.value ≠
      [.val ((7 : ℤ) : ℚ), .val ((1 : ℤ) : ℚ)] := by
  constructor
  · rfl
  · intro hs
    simp only [List.map, cMetric, List.cons.injEq, F.val.injEq] at hs
    have h25 : ((25 : ℕ) : ℚ) = ((1 : ℤ) : ℚ) := hs.2.1
    norm_num at h25

/-- Claim C1 (amended): `transform_composite` does not recurse; for each
entry it emits via `transform_simple` exactly when `as_f64` succeeds
(integers, floats, and strings parsing as floats), and silently skips every
other entry — nested composites, arrays, bools, nulls, and non-numeric
strings alike.  Consequently the traversal is insensitive to the skipped
entries, and under an always-matching rule the number of emitted metrics is
the number of `as_f64`-convertible entries. -/
theorem claim_C1_composite_traversal :
    (∀ (e : TransformEngine) (mbean : Str) (attrib : Option Str)
      (comp : List (Str × AttributeValue)),
      transform_composite e mbean attrib comp =
        transform_composite e mbean attrib
          (comp.filter (fun kv => (kv.2.as_f64).isSome))) ∧
    (∀ (mbean : Str) (attrib : Option Str) (comp : List (Str × AttributeValue)),
      ∃ ms, transform_composite constUntypedEngine mbean attrib comp = .ok ms ∧
        ms.length = (comp.filter (fun kv => (kv.2.as_f64).isSome)).length) := by
  constructor
  · intro e mbean attrib comp
    induction comp with
    | nil => rfl
    | cons kv rest ih =>
      obtain ⟨k, v⟩ := kv
      cases hv : v.as_f64 with
      | some num =>
        simp only [transform_composite, hv, List.filter_cons, Option.isSome_some, if_true]
        simp only [transform_composite, hv, ih]
      | none =>
        simp only [transform_composite, hv, List.filter_cons, Option.isSome_none]
        simp only [Bool.false_eq_true, if_false]
        exact ih
  · intro mbean attrib comp
    induction comp with
    | nil => exact ⟨[], rfl, rfl⟩
    | cons kv rest ih =>
      obtain ⟨k, v⟩ := kv
      obtain ⟨ms, hms, hlen⟩ := ih
      cases hv : v.as_f64 with
      | some num =>
        refine ⟨cMetric num :: ms, ?_, ?_⟩
        · simp only [transform_composite, hv, transform_simple_const, hms]
          rfl
        · simp [List.filter_cons, hv, hlen]
      | none =>
        refine ⟨ms, ?_, ?_⟩
        · simp only [transform_composite, hv, hms]
        · simp [List.filter_cons, hv, hlen]

/-- Witness for the amended C1 at a concrete composite: one convertible
entry, one skipped string entry. -/
theorem claim_C1_composite_traversal_witness :
    ∃ ms, transform_composite constUntypedEngine ("d:k=v".toList) none
      [("x".toList, .Integer 3), ("s".toList, .String ("abc".toList))] = .ok ms ∧
      ms.length = ([("x".toList, AttributeValue.Integer 3),
        ("s".toList, AttributeValue.String ("abc".toList))].filter
          (fun kv => (kv.2.as_f64).isSome)).length :=
  claim_C1_composite_traversal.2 ("d:k=v".toList) none
    [("x".toList, .Integer 3), ("s".toList, .String ("abc".toList))]

/-- Helper: the retry loop on an endpoint that always answers HTTP 503
consumes its whole attempt budget, sleeps the geometric capped delays, and
surfaces the last error `HttpStatus 503` (never `MaxRetriesExceeded`). -/
theorem read_retry_go_all503 (endpoint : ℕ → Except CollectorError JolokiaResponse)
    (cfg : RetryConfig) (h503 : ∀ n, endpoint n = .error (.HttpStatus 503)) :
    ∀ (remaining attempt : ℕ) (delay : ℚ) (slept : List ℚ),
      read_retry_go endpoint cfg attempt remaining delay slept =
        ⟨.error (.HttpStatus 503), attempt + remaining + 1,
          slept ++ delaySeq delay (safe_multiplier cfg.multiplier) cfg.max_delay remaining⟩ := by
  intro remaining
  induction remaining with
  | zero =>
    intro attempt delay slept
    unfold read_retry_go
    simp [h503 attempt, CollectorError.is_retryable, delaySeq]
  | succ r ih =>
    intro attempt delay slept
    have hretry : (CollectorError.HttpStatus 503).is_retryable = true := by
      simp [CollectorError.is_retryable]
    unfold read_retry_go
    simp only [h503 attempt, hretry, if_pos]
    rw [ih (attempt + 1) (min (delay * safe_multiplier cfg.multiplier) cfg.max_delay)
      (slept ++ [delay])]
    simp [delaySeq, List.append_assoc]
    omega

/-- Counterexample to claim C3 as stated: `collect_with_fallback` performs a
single `read_mbean` call per MBean (no retry), and on an always-503 endpoint
the entry is `Err(HttpStatus 503)`, not `Err(MaxRetriesExceeded)`; even
`read_mbean_with_retry` under the default config makes 4 attempts and then
surfaces `HttpStatus 503`, not `MaxRetriesExceeded`. -/
theorem claim_C3_counterexample :
    collect_with_fallback (fun _ => .error (.HttpStatus 503)) ["java.lang:type=Memory".toList] =
      [("java.lang:type=Memory".toList,
        (.error (.HttpStatus 503) : Except CollectorError JolokiaResponse))] ∧
    ((.error (.HttpStatus 503) : Except CollectorError JolokiaResponse) ≠
      .error .MaxRetriesExceeded) ∧
    (read_mbean_with_retry (fun _ => .error (.HttpStatus 503)) RetryConfig.default).attempts
      = 4 ∧
    (read_mbean_with_retry (fun _ => .error (.HttpStatus 503)) RetryConfig.default).result
      = .error (.HttpStatus 503) ∧
    (read_mbean_with_retry (fun _ => .error (.HttpStatus 503)) RetryConfig.default).delays
      = [100, 200, 400] := by
  have hgo := read_retry_go_all503 (fun _ => .error (.HttpStatus 503)) RetryConfig.default
    (fun _ => rfl) 3 0 100 []
  refine ⟨rfl, ?_, ?_, ?_, ?_⟩
  · intro hc
    simp at hc
  · simp only [read_mbean_with_retry, RetryConfig.default] at hgo ⊢
    rw [hgo]
  · simp only [read_mbean_with_retry, RetryConfig.default] at hgo ⊢
    rw [hgo]
  · simp only [read_mbean_with_retry, RetryConfig.default] at hgo ⊢
    rw [hgo]
    simp only [List.nil_append]
    norm_num [delaySeq, safe_multiplier]

/-- Claim C3 (amended): `collect_with_fallback` issues exactly one
non-retrying `read_mbean` call per MBean and returns its outcome verbatim —
`Err(HttpStatus 503)` for an always-503 endpoint; the retry behaviour lives
only in `read_mbean_with_retry`, which on such an endpoint performs
`max_retries + 1` attempts with delays following the geometric growth capped
at `max_delay` and then surfaces the last error `HttpStatus 503` (never
`MaxRetriesExceeded`, whose fallback arm is unreachable). -/
theorem claim_C3_retry_exhaustion (cfg : RetryConfig)
    (endpoint : ℕ → Except CollectorError JolokiaResponse)
    (h503 : ∀ n, endpoint n = .error (.HttpStatus 503)) :
    (read_mbean_with_retry endpoint cfg).attempts = cfg.max_retries + 1 ∧
    (read_mbean_with_retry endpoint cfg).result = .error (.HttpStatus 503) ∧
    (read_mbean_with_retry endpoint cfg).delays =
      delaySeq cfg.initial_delay (safe_multiplier cfg.multiplier) cfg.max_delay
        cfg.max_retries ∧
    (∀ (read : Str → Except CollectorError JolokiaResponse) (mbeans : List Str),
      (∀ m, read m = .error (.HttpStatus 503)) →
      collect_with_fallback read mbeans =
        mbeans.map (fun m => (m, .error (.HttpStatus 503)))) := by
  have hgo := read_retry_go_all503 endpoint cfg h503 cfg.max_retries 0 cfg.initial_delay []
  refine ⟨?_, ?_, ?_, ?_⟩
  · simp only [read_mbean_with_retry]
    rw [hgo]
    show 0 + cfg.max_retries + 1 = cfg.max_retries + 1
    omega
  · simp only [read_mbean_with_retry]
    rw [hgo]
  · simp only [read_mbean_with_retry]
    rw [hgo]
    show [] ++ _ = _
    simp
  · intro read mbeans hread
    induction mbeans with
    | nil => rfl
    | cons m rest ih =>
      simp [collect_with_fallback, hread m, ih]

/-- Witness for the amended C3 under the default configuration. -/
theorem claim_C3_retry_exhaustion_witness :
    (read_mbean_with_retry (fun _ => .error (.HttpStatus 503)) RetryConfig.default).attempts
      = RetryConfig.default.max_retries + 1 :=
  (claim_C3_retry_exhaustion RetryConfig.default (fun _ => .error (.HttpStatus 503))
    (fun _ => rfl)).1

/-- Helper: stable insertion permutes to a cons. -/
theorem insertLe_perm (le : α → α → Bool) (a : α) (l : List α) :
    List.Perm (insertLe le a l) (a :: l) := by
  induction l with
  | nil => exact List.Perm.refl _
  | cons b bs ih =>
    by_cases h : le a b = true
    · simp [insertLe, h]
    · simp only [insertLe, if_neg h]
      exact (ih.cons b).trans (List.Perm.swap a b bs)

/-- Helper: the stable sort is a permutation of its input. -/
theorem stableSort_perm (le : α → α → Bool) (l : List α) :
    List.Perm (stableSort le l) l := by
  induction l with
  | nil => exact List.Perm.refl _
  | cons a rest ih =>
    exact (insertLe_perm le a (stableSort le rest)).trans (ih.cons a)

/-- Helper: `observe` and `observeAll` never change the bucket bounds. -/
theorem observeAll_buckets (h : Histogram) (vs : List F) :
    (h.observeAll vs).buckets = h.buckets := by
  induction vs generalizing h with
  | nil => rfl
  | cons v rest ih => exact (ih (h.observe v)).trans rfl

/-- Helper: each `observe` adds one to the total count. -/
theorem observeAll_count (h : Histogram) (vs : List F) :
    (h.observeAll vs).count = h.count + vs.length := by
  induction vs generalizing h with
  | nil => rfl
  | cons v rest ih =>
    have step := ih (h.observe v)
    simp only [Histogram.observeAll, List.foldl_cons] at step ⊢
    rw [step]
    simp [Histogram.observe]
    omega

/-- Helper: after a sequence of observations, the counter at index `i` has
grown by the number of observed values `v` with `v <= bound_i`. -/
theorem observeAll_counts (vs : List F) (h : Histogram) (i : ℕ) (b : F) (c : ℕ)
    (hb : h.buckets[i]? = some b) (hc : h.bucket_counts[i]? = some c) :
    (h.observeAll vs).bucket_counts[i]? =
      some (c + vs.countP (fun v => F.le v b)) := by
  induction vs generalizing h c with
  | nil => simpa [Histogram.observeAll]
  | cons v rest ih =>
    have hb' : (h.observe v).buckets[i]? = some b := hb
    have hc' : (h.observe v).bucket_counts[i]? = some (if F.le v b then c + 1 else c) := by
      simp only [Histogram.observe, List.getElem?_zipWith, hb, hc]
    have step := ih (h.observe v) (if F.le v b then c + 1 else c) hb' hc'
    simp only [Histogram.observeAll, List.foldl_cons] at step ⊢
    rw [step]
    rw [List.countP_cons]
    by_cases hle : F.le v b = true
    · simp [hle]
      omega
    · simp [hle]

/-- Helper: `F.le` is transitive (vacuously so through NaN, whose
comparisons are all false). -/
theorem Fle_trans {a b c : F} (h1 : F.le a b = true) (h2 : F.le b c = true) :
    F.le a c = true := by
  cases a <;> cases b <;> cases c <;>
    first
    | rfl
    | exact Bool.noConfusion h1
    | exact Bool.noConfusion h2
    | (simp only [F.le, decide_eq_true_eq] at h1 h2
       exact decide_eq_true (le_trans h1 h2))

/-- Helper: every non-NaN value satisfies `v <= +Inf`. -/
theorem F.le_inf_of_ne_nan {v : F} (h : v ≠ F.nan) : F.le v F.inf = true := by
  cases v with
  | nan => exact absurd rfl h
  | inf => rfl
  | neginf => rfl
  | val q => rfl

/-- Helper: observations keep the counters list aligned with the buckets
list. -/
theorem observeAll_counts_length (vs : List F) (hst : Histogram)
    (hlen : hst.bucket_counts.length = hst.buckets.length) :
    (hst.observeAll vs).bucket_counts.length = hst.buckets.length := by
  induction vs generalizing hst with
  | nil => exact hlen
  | cons v rest ih =>
    have hlen' : (hst.observe v).bucket_counts.length = (hst.observe v).buckets.length := by
      simp [Histogram.observe, List.length_zipWith, hlen]
    exact ih (hst.observe v) hlen'

/-- Counterexample to claim C10 as stated: observing NaN increments the
total count but no bucket (NaN compares false with every bound), so the
final `+Inf` bucket holds 0 while the count is 1; and a histogram created
with a `-Inf` bound gets no `+Inf` bucket appended at all, so its final
bucket misses finite observations. -/
theorem claim_C10_counterexample :
    (((Histogram.new [F.val 1]).observe F.nan).bucket_counts.getLast? = some 0 ∧
     ((Histogram.new [F.val 1]).observe F.nan).count = 1) ∧
    (((Histogram.new [F.neginf]).observe (F.val 0)).buckets.getLast? = some F.neginf ∧
     ((Histogram.new [F.neginf]).observe (F.val 0)).bucket_counts.getLast? = some 0 ∧
     ((Histogram.new [F.neginf]).observe (F.val 0)).count = 1) := by
  exact ⟨⟨rfl, rfl⟩, rfl, rfl, rfl⟩

/-- Claim C10 (amended): for a histogram created from finite bucket bounds,
after any finite sequence of `observe` calls with non-NaN values the bucket
counts are cumulative — each counter equals the number of observations `v`
with `v <= bound` — counts are non-decreasing across `<=`-ordered bounds,
the final bucket bound is `+Inf`, and its counter equals the total
observation count. -/
theorem claim_C10_histogram (bounds : List F) (obs : List F)
    (hfin : ∀ b ∈ bounds, ∃ q, b = F.val q)
    (hnn : ∀ v ∈ obs, v ≠ F.nan) :
    ((Histogram.new bounds).observeAll obs).count = obs.length ∧
    (∀ (i : ℕ) (b : F) (c : ℕ),
      ((Histogram.new bounds).observeAll obs).buckets[i]? = some b →
      ((Histogram.new bounds).observeAll obs).bucket_counts[i]? = some c →
      c = obs.countP (fun v => F.le v b)) ∧
    (∀ (i j : ℕ) (bi bj : F) (ci cj : ℕ),
      ((Histogram.new bounds).observeAll obs).buckets[i]? = some bi →
      ((Histogram.new bounds).observeAll obs).buckets[j]? = some bj →
      ((Histogram.new bounds).observeAll obs).bucket_counts[i]? = some ci →
      ((Histogram.new bounds).observeAll obs).bucket_counts[j]? = some cj →
      F.le bi bj = true → ci ≤ cj) ∧
    ((Histogram.new bounds).observeAll obs).buckets.getLast? = some F.inf ∧
    ((Histogram.new bounds).observeAll obs).bucket_counts.getLast? = some obs.length := by
  have hbuckets0 : (Histogram.new bounds).buckets =
      stableSort fCmpLe bounds ++ [F.inf] := by
    simp only [Histogram.new]
    have hcond : ((stableSort fCmpLe bounds).getLast?.map
        (fun v => !v.isInfinite)).getD true = true := by
      cases hlast : (stableSort fCmpLe bounds).getLast? with
      | none => rfl
      | some b =>
        have hmem : b ∈ stableSort fCmpLe bounds := by
          rw [List.getLast?_eq_getElem?] at hlast
          exact List.getElem?_mem hlast
        have hb : b ∈ bounds := (stableSort_perm fCmpLe bounds).mem_iff.mp hmem
        obtain ⟨q, hq⟩ := hfin b hb
        subst hq
        rfl
    rw [hcond]
    rfl
  have hgen : ∀ (i : ℕ) (b : F), (Histogram.new bounds).buckets[i]? = some b →
      ((Histogram.new bounds).observeAll obs).bucket_counts[i]? =
        some (obs.countP (fun v => F.le v b)) := by
    intro i b hb
    have hc0 : (Histogram.new bounds).bucket_counts[i]? = some 0 := by
      simp only [Histogram.new] at hb ⊢
      rw [List.getElem?_map, hb]
      rfl
    have := observeAll_counts obs (Histogram.new bounds) i b 0 hb hc0
    simpa using this
  have hkeep : ((Histogram.new bounds).observeAll obs).buckets =
      (Histogram.new bounds).buckets := observeAll_buckets _ obs
  refine ⟨?_, ?_, ?_, ?_, ?_⟩
  · have := observeAll_count (Histogram.new bounds) obs
    simpa [Histogram.new] using this
  · intro i b c hb hc
    rw [hkeep] at hb
    rw [hgen i b hb] at hc
    exact (Option.some.injEq _ _).mp hc.symm
  · intro i j bi bj ci cj hbi hbj hci hcj hle
    rw [hkeep] at hbi hbj
    rw [hgen i bi hbi] at hci
    rw [hgen j bj hbj] at hcj
    have hci' : ci = obs.countP (fun v => F.le v bi) := by
      exact ((Option.some.injEq _ _).mp hci).symm
    have hcj' : cj = obs.countP (fun v => F.le v bj) := by
      exact ((Option.some.injEq _ _).mp hcj).symm
    rw [hci', hcj']
    exact List.countP_mono_left (fun x _ hx => Fle_trans hx hle)
  · rw [hkeep, hbuckets0]
    exact List.getLast?_concat _
  · have hlen0 : (Histogram.new bounds).bucket_counts.length =
        (Histogram.new bounds).buckets.length := by
      simp [Histogram.new]
    have hlen : ((Histogram.new bounds).observeAll obs).bucket_counts.length =
        (Histogram.new bounds).buckets.length := observeAll_counts_length obs _ hlen0
    have hlast_b : (Histogram.new bounds).buckets[(Histogram.new bounds).buckets.length - 1]? =
        some F.inf := by
      rw [← List.getLast?_eq_getElem?, hbuckets0]
      exact List.getLast?_concat _
    have hlast_c := hgen ((Histogram.new bounds).buckets.length - 1) F.inf hlast_b
    rw [List.getLast?_eq_getElem?, hlen]
    have hne : (Histogram.new bounds).buckets.length ≠ 0 := by
      rw [hbuckets0]
      simp
    rw [hlast_c]
    congr 1
    exact List.countP_eq_length.mpr (fun v hv => F.le_inf_of_ne_nan (hnn v hv))

/-- Witness for the amended C10 at a concrete histogram: one finite bound,
two non-NaN observations. -/
theorem claim_C10_histogram_witness :
    ((Histogram.new [F.val 1]).observeAll [F.val 0, F.val 5]).count = 2 :=
  (claim_C10_histogram [F.val 1] [F.val 0, F.val 5]
    (by intro b hb; simp at hb; exact ⟨1, hb⟩)
    (by
      intro v hv
      simp only [List.mem_cons, List.not_mem_nil, or_false] at hv
      rcases hv with h | h <;> subst h <;> simp)).1

/-- Helper: taking/dropping a predicate across a run that wholly satisfies
it, followed by a remainder whose head fails it. -/
theorem takeWhile_dropWhile_append (p : α → Bool) (l r : List α)
    (hl : ∀ x ∈ l, p x = true) (hr : ∀ x, r.head? = some x → p x = false) :
    (l ++ r).takeWhile p = l ∧ (l ++ r).dropWhile p = r := by
  induction l with
  | nil =>
    simp only [List.nil_append]
    cases r with
    | nil => simp
    | cons a t =>
      have ha := hr a rfl
      simp [List.takeWhile_cons, List.dropWhile_cons, ha]
  | cons a t ih =>
    have ha := hl a (List.mem_cons_self a t)
    have iht := ih (fun x hx => hl x (List.mem_cons_of_mem a hx))
    simp [List.takeWhile_cons, List.dropWhile_cons, ha, iht.1, iht.2]

/-- Claim C4: template substitution replaces `$` followed by a digit run
with the group of that index, `$` followed by a letter-led alphanumeric run
with the named group (underscores, not being alphanumeric, terminate the
identifier), substitutes the empty string for a missing group, and preserves
a literal `$` at the end of the template or before a non-identifier
character; all other characters pass through unchanged. -/
theorem claim_C4_substitution (caps : Captures) :
    (apply_substitution [] caps = []) ∧
    (∀ (c : Char) (rest : Str), c ≠ '$' →
      apply_substitution (c :: rest) caps = c :: apply_substitution rest caps) ∧
    (∀ (digits rest : Str), digits ≠ [] →
      (∀ d ∈ digits, isAsciiDigit d = true) →
      (∀ r, rest.head? = some r → isAsciiDigit r = false) →
      apply_substitution ('$' :: digits ++ rest) caps =
        ((caps.get (digitsToNat digits)).getD []) ++ apply_substitution rest caps) ∧
    (∀ (ident rest : Str) (h0 : Char) (t0 : Str), ident = h0 :: t0 →
      isAsciiAlpha h0 = true →
      (∀ i ∈ ident, isAsciiAlphanumeric i = true) →
      (∀ r, rest.head? = some r → isAsciiAlphanumeric r = false) →
      apply_substitution ('$' :: ident ++ rest) caps =
        ((caps.name ident).getD []) ++ apply_substitution rest caps) ∧
    (apply_substitution ['$'] caps = ['$']) ∧
    (∀ (c : Char) (rest : Str), isAsciiDigit c = false → isAsciiAlpha c = false →
      apply_substitution ('$' :: c :: rest) caps =
        '$' :: apply_substitution (c :: rest) caps) := by
  refine ⟨by simp [apply_substitution, applySubGo], ?_, ?_, ?_,
    by simp [apply_substitution, applySubGo], ?_⟩
  · intro c rest hc
    simp only [apply_substitution]
    rw [applySubGo.eq_def]
    cases rest with
    | nil => simp [hc]
    | cons b t => simp [hc]
  · intro digits rest hne hall hhead
    cases digits with
    | nil => exact absurd rfl hne
    | cons d ds =>
      have hd := hall d (List.mem_cons_self d ds)
      obtain ⟨htake, hdrop⟩ :=
        takeWhile_dropWhile_append isAsciiDigit (d :: ds) rest hall hhead
      simp only [apply_substitution, List.cons_append, applySubGo]
      rw [if_pos hd]
      simp only [← List.cons_append, htake, hdrop]
  · intro ident rest h0 t0 hid hal hall hhead
    subst hid
    have hd : isAsciiDigit h0 = false := by
      simp only [isAsciiAlpha, Bool.or_eq_true, Bool.and_eq_true, decide_eq_true_eq] at hal
      simp only [isAsciiDigit, Bool.and_eq_true, decide_eq_true_eq, Bool.and_eq_false_iff,
        decide_eq_false_iff_not, not_le]
      omega
    obtain ⟨htake, hdrop⟩ :=
      takeWhile_dropWhile_append isAsciiAlphanumeric (h0 :: t0) rest hall hhead
    simp only [apply_substitution, List.cons_append, applySubGo]
    rw [if_neg (by simp [hd]), if_pos hal]
    simp only [← List.cons_append, htake, hdrop]
  · intro c rest hcd hca
    simp only [apply_substitution, applySubGo]
    rw [if_neg (by simp [hcd]), if_neg (by simp [hca])]

/-- Witness for C4: the template `jvm_$type_$attr` with named groups `type`
and `attr` substitutes to `jvm_Memory_used` — the underscores terminate the
identifiers as claimed. -/
theorem claim_C4_substitution_witness :
    apply_substitution ("jvm_$type_$attr".toList)
      { get := fun _ => none,
        name := fun n =>
          if n = "type".toList then some ("Memory".toList)
          else if n = "attr".toList then some ("used".toList) else none } =
      "jvm_Memory_used".toList := by
  have h := claim_C4_substitution
    { get := fun _ => none,
      name := fun n =>
        if n = "type".toList then some ("Memory".toList)
        else if n = "attr".toList then some ("used".toList) else none }
  have h4 := h.2.2.2.1 ("type".toList) ("_$attr".toList) 't' ("ype".toList) rfl
    (by decide) (by decide) (by decide)
  rw [show ("jvm_$type_$attr".toList : Str) =
    'j' :: 'v' :: 'm' :: '_' :: ('$' :: "type".toList ++ "_$attr".toList) from rfl]
  rw [h.2.1 'j' _ (by decide), h.2.1 'v' _ (by decide), h.2.1 'm' _ (by decide),
    h.2.1 '_' _ (by decide)]
  rw [h4]
  have h5 := h.2.2.2.1 ("attr".toList) [] 'a' ("ttr".toList) rfl
    (by decide) (by decide) (by simp)
  rw [show ("_$attr".toList : Str) = '_' :: ('$' :: "attr".toList ++ []) from rfl]
  rw [h.2.1 '_' _ (by decide), h5]
  have h0 : apply_substitution []
      { get := fun _ => none,
        name := fun n =>
          if n = "type".toList then some ("Memory".toList)
          else if n = "attr".toList then some ("used".toList) else none } = [] := by
    simp [apply_substitution, applySubGo]
  rw [h0]
  decide

/-- Helper: `lexLe` is total. -/
theorem lexLe_total (a : Str) : ∀ b : Str, lexLe a b = true ∨ lexLe b a = true := by
  induction a with
  | nil => intro b; left; rfl
  | cons x xs ih =>
    intro b
    cases b with
    | nil => right; rfl
    | cons y ys =>
      rcases lt_trichotomy x y with h | h | h
      · left; simp [lexLe, h]
      · subst h
        rcases ih ys with h2 | h2
        · left; simp [lexLe, h2]
        · right; simp [lexLe, h2]
      · right; simp [lexLe, h]

/-- Helper: `lexLe` is transitive. -/
theorem lexLe_trans' : ∀ {a b c : Str}, lexLe a b = true → lexLe b c = true →
    lexLe a c = true := by
  intro a
  induction a with
  | nil => intro b c _ _; rfl
  | cons x xs ih =>
    intro b c h1 h2
    cases b with
    | nil => simp [lexLe] at h1
    | cons y ys =>
      cases c with
      | nil => simp [lexLe] at h2
      | cons z zs =>
        by_cases h3 : x < y
        · by_cases h4 : y < z
          · have h5 : x < z := lt_trans h3 h4
            simp [lexLe, h5]
          · have h5 : y = z := by
              by_contra hne
              simp [lexLe, h4, hne] at h2
            subst h5
            simp [lexLe, h3]
        · have hx : x = y := by
            by_contra hne
            simp [lexLe, h3, hne] at h1
          subst hx
          have h1' : lexLe xs ys = true := by simpa [lexLe, lt_irrefl] using h1
          by_cases h4 : x < z
          · simp [lexLe, h4]
          · have h5 : x = z := by
              by_contra hne
              simp [lexLe, h4, hne] at h2
            subst h5
            have h2' : lexLe ys zs = true := by simpa [lexLe, lt_irrefl] using h2
            simp [lexLe, lt_irrefl, ih h1' h2']

/-- Helper: `lexLe` is antisymmetric. -/
theorem lexLe_antisymm' : ∀ {a b : Str}, lexLe a b = true → lexLe b a = true →
    a = b := by
  intro a
  induction a with
  | nil =>
    intro b h1 h2
    cases b with
    | nil => rfl
    | cons y ys => simp [lexLe] at h2
  | cons x xs ih =>
    intro b h1 h2
    cases b with
    | nil => simp [lexLe] at h1
    | cons y ys =>
      by_cases h3 : x < y
      · have h4 : ¬ y < x := lt_asymm h3
        have h5 : y ≠ x := ne_of_gt h3
        simp [lexLe, h4, h5] at h2
      · have hx : x = y := by
          by_contra hne
          simp [lexLe, h3, hne] at h1
        subst hx
        have h1' : lexLe xs ys = true := by simpa [lexLe, lt_irrefl] using h1
        have h2' : lexLe ys xs = true := by simpa [lexLe, lt_irrefl] using h2
        rw [ih h1' h2']

/-- Helper: inserting into a pairwise-`le` list keeps it pairwise, for a
total and transitive comparator. -/
theorem pairwise_insertLe (le : α → α → Bool)
    (htot : ∀ x y, le x y = true ∨ le y x = true)
    (htrans : ∀ x y z, le x y = true → le y z = true → le x z = true)
    (a : α) (l : List α) (hl : l.Pairwise (fun x y => le x y = true)) :
    (insertLe le a l).Pairwise (fun x y => le x y = true) := by
  induction l with
  | nil => simp [insertLe]
  | cons b bs ih =>
    rcases List.pairwise_cons.mp hl with ⟨hb, hbs⟩
    by_cases h : le a b = true
    · simp only [insertLe, if_pos h]
      refine List.Pairwise.cons ?_ hl
      intro x hx
      rcases List.mem_cons.mp hx with rfl | hx2
      · exact h
      · exact htrans a b x h (hb x hx2)
    · simp only [insertLe, if_neg h]
      refine List.Pairwise.cons ?_ (ih hbs)
      intro x hx
      rcases List.mem_cons.mp ((insertLe_perm le a bs).mem_iff.mp hx) with heq | hx2
      · subst heq
        rcases htot x b with h' | h'
        · exact absurd h' h
        · exact h'
      · exact hb x hx2

/-- Helper: the stable sort is pairwise-`le` for a total and transitive
comparator. -/
theorem pairwise_stableSort (le : α → α → Bool)
    (htot : ∀ x y, le x y = true ∨ le y x = true)
    (htrans : ∀ x y z, le x y = true → le y z = true → le x z = true)
    (l : List α) :
    (stableSort le l).Pairwise (fun x y => le x y = true) := by
  induction l with
  | nil => simp [stableSort]
  | cons a rest ih => exact pairwise_insertLe le htot htrans a (stableSort le rest) ih

/-- Helper: two key-sorted permutations of an association list with
duplicate-free keys are equal. -/
theorem sorted_perm_eq_of_nodup_keys :
    ∀ (l₁ l₂ : List (Str × Str)),
      l₁.Pairwise (fun p q => lexLe p.1 q.1 = true) →
      l₂.Pairwise (fun p q => lexLe p.1 q.1 = true) →
      List.Perm l₁ l₂ → (l₁.map Prod.fst).Nodup → l₁ = l₂ := by
  intro l₁
  induction l₁ with
  | nil =>
    intro l₂ _ _ hp _
    exact (List.Perm.nil_eq hp)
  | cons a t ih =>
    intro l₂ h1 h2 hp hnd
    cases l₂ with
    | nil =>
      have := List.Perm.eq_nil hp
      simp at this
    | cons b t₂ =>
      have hstep : a = b := by
        have hab : a ∈ b :: t₂ := hp.mem_iff.mp (List.mem_cons_self a t)
        rcases List.mem_cons.mp hab with h | hat2
        · exact h
        · rcases List.mem_cons.mp (hp.symm.mem_iff.mp (List.mem_cons_self b t₂)) with h | hbt
          · exact h.symm
          · have hab1 : lexLe a.1 b.1 = true := (List.pairwise_cons.mp h1).1 b hbt
            have hba1 : lexLe b.1 a.1 = true := (List.pairwise_cons.mp h2).1 a hat2
            have hkey : a.1 = b.1 := lexLe_antisymm' hab1 hba1
            have hmem : a.1 ∈ t.map Prod.fst := by
              rw [hkey]
              exact List.mem_map_of_mem Prod.fst hbt
            exact absurd hmem (List.nodup_cons.mp hnd).1
      subst hstep
      have hp' := hp.cons_inv
      have ht := ih t₂ (List.pairwise_cons.mp h1).2 (List.pairwise_cons.mp h2).2 hp'
        (by simpa using (List.nodup_cons.mp hnd).2)
      rw [ht]

/-- Helper: members of `insertKV`'s result carry either the inserted key or
a key of the original list. -/
theorem insertKV_keys_mem (k : Str) (v : β) :
    ∀ (l : List (Str × β)) (x : Str), x ∈ (insertKV k v l).map Prod.fst →
      x = k ∨ x ∈ l.map Prod.fst := by
  intro l
  induction l with
  | nil =>
    intro x hx
    rw [show (insertKV k v ([] : List (Str × β))).map Prod.fst = [k] from rfl] at hx
    rcases List.mem_cons.mp hx with h | h
    · exact Or.inl h
    · exact absurd h (List.not_mem_nil x)
  | cons kv rest ih =>
    obtain ⟨k₀, v₀⟩ := kv
    intro x hx
    by_cases h : k₀ = k
    · rw [show insertKV k v ((k₀, v₀) :: rest) = (k, v) :: rest from by
        simp [insertKV, h]] at hx
      rw [List.map_cons] at hx
      rcases List.mem_cons.mp hx with h2 | h2
      · exact Or.inl h2
      · exact Or.inr (by rw [List.map_cons]; exact List.mem_cons_of_mem _ h2)
    · rw [show insertKV k v ((k₀, v₀) :: rest) = (k₀, v₀) :: insertKV k v rest from by
        simp [insertKV, h]] at hx
      rw [List.map_cons] at hx
      rcases List.mem_cons.mp hx with h2 | h2
      · exact Or.inr (by rw [List.map_cons]; exact h2 ▸ List.mem_cons_self _ _)
      · rcases ih x h2 with h3 | h3
        · exact Or.inl h3
        · exact Or.inr (by rw [List.map_cons]; exact List.mem_cons_of_mem _ h3)

/-- Helper: `insertKV` keeps the key list duplicate-free. -/
theorem insertKV_nodup_keys (k : Str) (v : β) :
    ∀ (l : List (Str × β)), (l.map Prod.fst).Nodup →
      ((insertKV k v l).map Prod.fst).Nodup := by
  intro l
  induction l with
  | nil =>
    intro _
    rw [show (insertKV k v ([] : List (Str × β))).map Prod.fst = [k] from rfl]
    exact List.nodup_singleton k
  | cons kv rest ih =>
    obtain ⟨k₀, v₀⟩ := kv
    intro hnd
    rw [List.map_cons] at hnd
    rcases List.nodup_cons.mp hnd with ⟨hk0, hrest⟩
    by_cases h : k₀ = k
    · subst h
      rw [show insertKV k₀ v ((k₀, v₀) :: rest) = (k₀, v) :: rest from by
        simp [insertKV]]
      rw [List.map_cons]
      exact List.nodup_cons.mpr ⟨hk0, hrest⟩
    · rw [show insertKV k v ((k₀, v₀) :: rest) = (k₀, v₀) :: insertKV k v rest from by
        simp [insertKV, h]]
      rw [List.map_cons]
      refine List.nodup_cons.mpr ⟨?_, ih hrest⟩
      intro hmem
      rcases insertKV_keys_mem k v rest k₀ hmem with h2 | h2
      · exact h h2
      · exact hk0 h2

/-- Helper: the `ObjectName::parse` property loop keeps keys
duplicate-free. -/
theorem parseProps_nodup_keys (orig : Str) :
    ∀ (segs : List Str) (acc props : List (Str × Str)),
      (acc.map Prod.fst).Nodup → parseProps orig segs acc = .ok props →
      (props.map Prod.fst).Nodup := by
  intro segs
  induction segs with
  | nil =>
    intro acc props hacc h
    simp only [parseProps] at h
    cases h
    exact hacc
  | cons seg rest ih =>
    intro acc props hacc h
    cases hsplit : splitFirst '=' seg with
    | none =>
      simp only [parseProps, hsplit] at h
      exact Except.noConfusion h
    | some kv =>
      obtain ⟨k, v⟩ := kv
      simp only [parseProps, hsplit] at h
      by_cases hkey : trimChars k = []
      · rw [if_pos hkey] at h
        exact Except.noConfusion h
      · rw [if_neg hkey] at h
        exact ih (insertKV (trimChars k) (trimChars v) acc) props
          (insertKV_nodup_keys (trimChars k) (trimChars v) acc hacc) h

/-- Helper: a parsed `ObjectName` has duplicate-free property keys (the
properties live in a `HashMap`). -/
theorem parse_nodup_keys (s : Str) (oname : ObjectName)
    (h : ObjectName.parse s = .ok oname) :
    (oname.properties.map Prod.fst).Nodup := by
  cases hsplit : splitFirst ':' s with
  | none =>
    simp only [ObjectName.parse, hsplit] at h
    exact Except.noConfusion h
  | some dp =>
    obtain ⟨d, propsStr⟩ := dp
    simp only [ObjectName.parse, hsplit] at h
    by_cases hdom : trimChars d = []
    · rw [if_pos hdom] at h
      exact Except.noConfusion h
    · rw [if_neg hdom] at h
      cases hprops : parseProps s (splitOnChar ',' propsStr) [] with
      | error e =>
        simp only [hprops] at h
        exact Except.noConfusion h
      | ok props =>
        simp only [hprops] at h
        by_cases hempty : props = []
        · rw [if_pos hempty] at h
          exact Except.noConfusion h
        · rw [if_neg hempty] at h
          cases h
          exact parseProps_nodup_keys s (splitOnChar ',' propsStr) [] props (by simp) hprops

/-- Claim C7: for every parseable MBean ObjectName the flattened path emits
the property segments sorted by key in byte-lexicographic order, and the
path is invariant under any permutation of the parsed property entries —
the order JSON or string iteration could present them in. -/
theorem claim_C7_path_determinism (s₁ s₂ : Str) (on₁ on₂ : ObjectName)
    (attrib : Option Str)
    (h₁ : ObjectName.parse s₁ = .ok on₁) (h₂ : ObjectName.parse s₂ = .ok on₂)
    (hdom : on₁.domain = on₂.domain)
    (hperm : List.Perm on₁.properties on₂.properties) :
    flatten_mbean_name s₁ attrib = flatten_mbean_name s₂ attrib ∧
    ((sortProps on₁.properties).map Prod.fst).Pairwise
      (fun a b => lexLe a b = true) := by
  have htot : ∀ x y : Str × Str, lexLe x.1 y.1 = true ∨ lexLe y.1 x.1 = true :=
    fun x y => lexLe_total x.1 y.1
  have htrans : ∀ x y z : Str × Str, lexLe x.1 y.1 = true → lexLe y.1 z.1 = true →
      lexLe x.1 z.1 = true := fun _ _ _ hxy hyz => lexLe_trans' hxy hyz
  have hs₁ := pairwise_stableSort (fun p q : Str × Str => lexLe p.1 q.1) htot htrans
    on₁.properties
  have hs₂ := pairwise_stableSort (fun p q : Str × Str => lexLe p.1 q.1) htot htrans
    on₂.properties
  have hnodup := parse_nodup_keys s₁ on₁ h₁
  have hnodup_sorted : ((sortProps on₁.properties).map Prod.fst).Nodup := by
    have hpm : List.Perm ((sortProps on₁.properties).map Prod.fst)
        (on₁.properties.map Prod.fst) :=
      (stableSort_perm (fun p q : Str × Str => lexLe p.1 q.1) on₁.properties).map Prod.fst
    exact hpm.nodup_iff.mpr hnodup
  have hperm_sorted : List.Perm (sortProps on₁.properties) (sortProps on₂.properties) :=
    ((stableSort_perm _ on₁.properties).trans hperm).trans
      (stableSort_perm _ on₂.properties).symm
  have heq : sortProps on₁.properties = sortProps on₂.properties :=
    sorted_perm_eq_of_nodup_keys _ _ hs₁ hs₂ hperm_sorted hnodup_sorted
  constructor
  · simp only [flatten_mbean_name, h₁, h₂, hdom, heq]
  · exact hs₁.map Prod.fst (fun _ _ h => h)

/-- Witness for C7: exchanging the two properties of a concrete ObjectName
leaves the flattened path unchanged. -/
theorem claim_C7_path_determinism_witness :
    flatten_mbean_name ("java.lang:type=Memory,name=G1".toList) none =
      flatten_mbean_name ("java.lang:name=G1,type=Memory".toList) none :=
  (claim_C7_path_determinism ("java.lang:type=Memory,name=G1".toList)
    ("java.lang:name=G1,type=Memory".toList)
    ⟨"java.lang".toList,
      [("type".toList, "Memory".toList), ("name".toList, "G1".toList)]⟩
    ⟨"java.lang".toList,
      [("name".toList, "G1".toList), ("type".toList, "Memory".toList)]⟩
    none rfl rfl rfl
    (List.Perm.swap ("name".toList, "G1".toList) ("type".toList, "Memory".toList) [])).1

end RJMX
